import Mathlib

/-!
Verification of the side-effect summary analysis, the constant-propagation
transform visitor and the configuration binder of this repository.

The definitions below are a shallow embedding of the C++ sources:
  - src/opt/object-sensitive-dce/SideEffectSummary.cpp
  - src/opt/constant-propagation/ConstantPropagationTransform.h
  - src/libredex/Configurable.h
Auxiliary types whose headers are not part of the excerpt (effect flags,
`Summary`, the local-pointers environment, sparta s-expressions) are modelled
from the specification, as indicated by their doc comments.
-/

namespace Redex

/-- Modelled from the spec: the effect bitset flags of a `Summary`
(`SideEffectSummary.h` is not part of the excerpt).  The spec names five
flags — throws, locks, escaping-write, unknown-invoke, no-optimize — which we
model as distinct bits, with `EFF_NONE` the empty bitset. -/
def EFF_NONE : Nat := 0

/-- Modelled from the spec: the `throws` effect flag. -/
def EFF_THROWS : Nat := 1

/-- Modelled from the spec: the `locks` effect flag. -/
def EFF_LOCKS : Nat := 2

/-- Modelled from the spec: the `escaping-write` effect flag. -/
def EFF_WRITE_MAY_ESCAPE : Nat := 4

/-- Modelled from the spec: the `unknown-invoke` effect flag. -/
def EFF_UNKNOWN_INVOKE : Nat := 8

/-- Modelled from the spec: the `no-optimize` effect flag. -/
def EFF_NO_OPTIMIZE : Nat := 16

/-- Modelled from the spec: a method's abstract effect signature — an effect
bitset plus the set of parameter indices whose referenced object may be
mutated (`Summary` is declared in the missing `SideEffectSummary.h`; the spec
describes it in §3).  Parameter indices (`param_idx_t`) are modelled as
natural numbers. -/
structure Summary where
  effects : Nat := 0
  modified_params : Finset Nat := ∅
deriving DecidableEq

/-- The opcodes distinguished by `SummaryBuilder::analyze_instruction_effects`
and by the constant-propagation visitor; every other opcode falls into the
`other` default case. -/
inductive Opcode where
  | op_throw
  | monitor_enter
  | monitor_exit
  | sput
  | sput_wide
  | sput_boolean
  | sput_byte
  | sput_char
  | sput_short
  | sput_object
  | iput
  | iput_wide
  | iput_boolean
  | iput_byte
  | iput_char
  | iput_short
  | iput_object
  | aput
  | aput_wide
  | aput_boolean
  | aput_byte
  | aput_char
  | aput_short
  | aput_object
  | fill_array_data
  | invoke_super
  | invoke_interface
  | invoke_static
  | invoke_direct
  | invoke_virtual
  | load_param_object
  | const
  | const_wide
  | const_string
  | move_result_pseudo_object
  | other
deriving DecidableEq

/-- Modelled from the spec: an IR instruction (the `IRInstruction` class is
not part of the excerpt).  It exposes an opcode, source registers, a
destination register with its wideness, a literal and a string reference; the
`uid` field models C++ pointer identity of distinct instruction objects. -/
structure Instr where
  opcode : Opcode
  srcs : List Nat := []
  uid : Nat := 0
  dest : Nat := 0
  dest_is_wide : Bool := false
  literal : Int := 0
  string_ref : Nat := 0
deriving DecidableEq

/-- The `i`-th source register of an instruction (`insn->src(i)`). -/
def Instr.src (insn : Instr) (i : Nat) : Nat := insn.srcs.getD i 0

/-- Modelled from the spec: the pointer abstract value of a register — either
the set of allocation-site instructions the register may reference, or a
sentinel meaning unknown/top (`is_value()` is false exactly on the sentinel).
The element list models the iteration order of `pointers.elements()`. -/
inductive PtrVal where
  | top : PtrVal
  | set : List Instr → PtrVal
deriving DecidableEq

/-- Modelled from the spec: the local-pointers environment at a program
point, exposing the pointer abstract value of each register and the escape
flag of each allocation site. -/
structure PtrEnv where
  get_pointers : Nat → PtrVal
  may_have_escaped : Instr → Bool

/-- Loop body of `SummaryBuilder::classify_heap_write`: the action of one
allocation site `insn` of the written-through pointer on the summary.  The
`pmap` argument models `m_param_insn_map.at`, the map from load-param
instruction to parameter index built in the `SummaryBuilder` constructor
(the `.at` lookup presumes the allocation site is one of this method's
load-param instructions, so we model the map as a total function). -/
def classify_step (pmap : Instr → Nat) (env : PtrEnv) (s : Summary)
    (insn : Instr) : Summary :=
  if !(env.may_have_escaped insn) then
    if insn.opcode = Opcode.load_param_object then
      { s with modified_params := insert (pmap insn) s.modified_params }
    else s
  else
    { s with effects := s.effects ||| EFF_WRITE_MAY_ESCAPE }

/-- `SummaryBuilder::classify_heap_write`: classify a heap write through
register `modified_ptr_reg`, updating the summary. -/
def classify_heap_write (pmap : Instr → Nat) (env : PtrEnv)
    (modified_ptr_reg : Nat) (summary : Summary) : Summary :=
  match env.get_pointers modified_ptr_reg with
  | PtrVal.top =>
      { summary with effects := summary.effects ||| EFF_WRITE_MAY_ESCAPE }
  | PtrVal.set ptrs => ptrs.foldl (classify_step pmap env) summary

/-- `SummaryBuilder::analyze_instruction_effects`: the effect of a single
instruction on the summary being built.  `invoke_map` models
`m_invoke_to_summary_cmap`; the iteration over the callee's
`modified_params` (an unordered set in C++) is modelled over the sorted
element list, which is harmless because the classification updates
commute. -/
def analyze_instruction_effects (pmap : Instr → Nat)
    (invoke_map : Instr → Option Summary) (env : PtrEnv) (insn : Instr)
    (summary : Summary) : Summary :=
  match insn.opcode with
  | Opcode.op_throw =>
      { summary with effects := summary.effects ||| EFF_THROWS }
  | Opcode.monitor_enter | Opcode.monitor_exit =>
      { summary with effects := summary.effects ||| EFF_LOCKS }
  | Opcode.sput | Opcode.sput_wide | Opcode.sput_boolean | Opcode.sput_byte
  | Opcode.sput_char | Opcode.sput_short | Opcode.sput_object =>
      { summary with effects := summary.effects ||| EFF_WRITE_MAY_ESCAPE }
  | Opcode.iput | Opcode.iput_wide | Opcode.iput_boolean | Opcode.iput_byte
  | Opcode.iput_char | Opcode.iput_short | Opcode.iput_object
  | Opcode.aput | Opcode.aput_wide | Opcode.aput_boolean | Opcode.aput_byte
  | Opcode.aput_char | Opcode.aput_short | Opcode.aput_object =>
      classify_heap_write pmap env (insn.src 1) summary
  | Opcode.fill_array_data =>
      classify_heap_write pmap env (insn.src 0) summary
  | Opcode.invoke_super | Opcode.invoke_interface =>
      { summary with effects := summary.effects ||| EFF_UNKNOWN_INVOKE }
  | Opcode.invoke_static | Opcode.invoke_direct | Opcode.invoke_virtual =>
      match invoke_map insn with
      | some callee_summary =>
          (callee_summary.modified_params.sort (· ≤ ·)).foldl
            (fun s idx => classify_heap_write pmap env (insn.src idx) s)
            { summary with
                effects := summary.effects ||| callee_summary.effects }
      | none =>
          { summary with effects := summary.effects ||| EFF_UNKNOWN_INVOKE }
  | _ => summary

/-- A bitset `x` contains the effect bits `eff` when OR-ing `eff` in changes
nothing. -/
def hasEff (x eff : Nat) : Prop := x ||| eff = x

instance (x eff : Nat) : Decidable (hasEff x eff) := by
  unfold hasEff
  infer_instance

theorem hasEff_lor_self (x e : Nat) : hasEff (x ||| e) e := by
  simp [hasEff, Nat.lor_assoc]

theorem hasEff_lor_base (x y : Nat) : hasEff (x ||| y) x := by
  simp [hasEff]
  rw [Nat.lor_comm x y, Nat.lor_assoc]
  simp

theorem hasEff_lor_left {x e : Nat} (y : Nat) (h : hasEff x e) :
    hasEff (x ||| y) e := by
  unfold hasEff at h ⊢
  rw [Nat.lor_assoc, Nat.lor_comm y e, ← Nat.lor_assoc, h]

theorem classify_step_effects_mono {e : Nat} (pmap : Instr → Nat)
    (env : PtrEnv) (s : Summary) (insn : Instr) (h : hasEff s.effects e) :
    hasEff (classify_step pmap env s insn).effects e := by
  unfold classify_step
  split
  · split
    · exact h
    · exact h
  · exact hasEff_lor_left _ h

theorem classify_step_params_mono {i : Nat} (pmap : Instr → Nat)
    (env : PtrEnv) (s : Summary) (insn : Instr)
    (h : i ∈ s.modified_params) :
    i ∈ (classify_step pmap env s insn).modified_params := by
  unfold classify_step
  split
  · split
    · exact Finset.mem_insert_of_mem h
    · exact h
  · exact h

theorem foldl_classify_step_effects_mono {e : Nat} (pmap : Instr → Nat)
    (env : PtrEnv) :
    ∀ (l : List Instr) (s : Summary), hasEff s.effects e →
      hasEff ((l.foldl (classify_step pmap env) s)).effects e := by
  intro l
  induction l with
  | nil => intro s h; exact h
  | cons b t ih =>
      intro s h
      exact ih _ (classify_step_effects_mono pmap env s b h)

theorem foldl_classify_step_params_mono {i : Nat} (pmap : Instr → Nat)
    (env : PtrEnv) :
    ∀ (l : List Instr) (s : Summary), i ∈ s.modified_params →
      i ∈ ((l.foldl (classify_step pmap env) s)).modified_params := by
  intro l
  induction l with
  | nil => intro s h; exact h
  | cons b t ih =>
      intro s h
      exact ih _ (classify_step_params_mono pmap env s b h)

theorem foldl_classify_step_escaped (pmap : Instr → Nat) (env : PtrEnv)
    {a : Instr} :
    ∀ (l : List Instr) (s : Summary), a ∈ l →
      env.may_have_escaped a = true →
      hasEff ((l.foldl (classify_step pmap env) s)).effects
        EFF_WRITE_MAY_ESCAPE := by
  intro l
  induction l with
  | nil => intro s h; cases h
  | cons b t ih =>
      intro s hmem hesc
      rcases List.mem_cons.mp hmem with hab | hat
      · subst hab
        rw [List.foldl_cons]
        apply foldl_classify_step_effects_mono
        unfold classify_step
        rw [hesc]
        simpa using hasEff_lor_self s.effects EFF_WRITE_MAY_ESCAPE
      · exact ih _ hat hesc

theorem foldl_classify_step_param_mem (pmap : Instr → Nat) (env : PtrEnv)
    {a : Instr} :
    ∀ (l : List Instr) (s : Summary), a ∈ l →
      env.may_have_escaped a = false →
      a.opcode = Opcode.load_param_object →
      pmap a ∈ ((l.foldl (classify_step pmap env) s)).modified_params := by
  intro l
  induction l with
  | nil => intro s h; cases h
  | cons b t ih =>
      intro s hmem hesc hop
      rcases List.mem_cons.mp hmem with hab | hat
      · subst hab
        rw [List.foldl_cons]
        apply foldl_classify_step_params_mono
        unfold classify_step
        rw [hesc, if_pos hop]
        simp
      · exact ih _ hat hesc hop

theorem foldl_classify_step_id (pmap : Instr → Nat) (env : PtrEnv) :
    ∀ (l : List Instr) (s : Summary),
      (∀ a ∈ l, env.may_have_escaped a = false ∧
        a.opcode ≠ Opcode.load_param_object) →
      l.foldl (classify_step pmap env) s = s := by
  intro l
  induction l with
  | nil => intro s _; rfl
  | cons b t ih =>
      intro s h
      have hb := h b (List.mem_cons_self b t)
      have hstep : classify_step pmap env s b = s := by
        unfold classify_step
        rw [hb.1, if_neg hb.2]
        rfl
      simpa [hstep] using ih s (fun a ha => h a (List.mem_cons_of_mem b ha))

theorem classify_top (pmap : Instr → Nat) (env : PtrEnv) {r : Nat}
    (s : Summary) (h : env.get_pointers r = PtrVal.top) :
    classify_heap_write pmap env r s
      = { s with effects := s.effects ||| EFF_WRITE_MAY_ESCAPE } := by
  unfold classify_heap_write
  rw [h]

theorem classify_set (pmap : Instr → Nat) (env : PtrEnv) {r : Nat}
    {l : List Instr} (s : Summary) (h : env.get_pointers r = PtrVal.set l) :
    classify_heap_write pmap env r s = l.foldl (classify_step pmap env) s := by
  unfold classify_heap_write
  rw [h]

theorem classify_effects_mono {e : Nat} (pmap : Instr → Nat) (env : PtrEnv)
    (r : Nat) (s : Summary) (h : hasEff s.effects e) :
    hasEff (classify_heap_write pmap env r s).effects e := by
  unfold classify_heap_write
  cases env.get_pointers r with
  | top => exact hasEff_lor_left _ h
  | set l => exact foldl_classify_step_effects_mono pmap env l s h

theorem classify_params_mono {i : Nat} (pmap : Instr → Nat) (env : PtrEnv)
    (r : Nat) (s : Summary) (h : i ∈ s.modified_params) :
    i ∈ (classify_heap_write pmap env r s).modified_params := by
  unfold classify_heap_write
  cases env.get_pointers r with
  | top => exact h
  | set l => exact foldl_classify_step_params_mono pmap env l s h

/-- C1: a heap write through a register whose pointer abstract value is not a
concrete set gains the escaping-write effect; through a concrete set, every
escaped allocation site gains escaping-write, every non-escaped load-param
allocation site records its parameter index in `modified_params`, and a set
of only non-escaped non-parameter allocation sites leaves the summary
unchanged. -/
theorem classify_heap_write_correct (pmap : Instr → Nat) (env : PtrEnv)
    (r : Nat) (s : Summary) :
    (env.get_pointers r = PtrVal.top →
      classify_heap_write pmap env r s
        = { s with effects := s.effects ||| EFF_WRITE_MAY_ESCAPE })
    ∧ (∀ l, env.get_pointers r = PtrVal.set l →
        (∀ a ∈ l, env.may_have_escaped a = true →
          hasEff (classify_heap_write pmap env r s).effects
            EFF_WRITE_MAY_ESCAPE)
        ∧ (∀ a ∈ l, env.may_have_escaped a = false →
            a.opcode = Opcode.load_param_object →
            pmap a ∈ (classify_heap_write pmap env r s).modified_params)
        ∧ ((∀ a ∈ l, env.may_have_escaped a = false ∧
              a.opcode ≠ Opcode.load_param_object) →
            classify_heap_write pmap env r s = s)) := by
  constructor
  · intro h
    exact classify_top pmap env s h
  · intro l h
    rw [classify_set pmap env s h]
    exact ⟨fun a ha he => foldl_classify_step_escaped pmap env l s ha he,
           fun a ha he hop =>
             foldl_classify_step_param_mem pmap env l s ha he hop,
           fun hall => foldl_classify_step_id pmap env l s hall⟩

/-- Witness for C1: a concrete top pointer value, and a concrete two-element
allocation-site set with one escaped site and one load-param site. -/
theorem classify_heap_write_correct_witness :
    classify_heap_write (fun _ => 7)
        ⟨fun _ => PtrVal.top, fun _ => false⟩ 0 { effects := 1 }
      = { effects := 1 ||| EFF_WRITE_MAY_ESCAPE }
    ∧ hasEff (classify_heap_write (fun _ => 7)
        ⟨fun _ => PtrVal.set [⟨Opcode.load_param_object, [], 10, 0, false, 0, 0⟩,
            ⟨Opcode.other, [], 11, 0, false, 0, 0⟩],
          fun i => i.uid == 11⟩ 0 {}).effects EFF_WRITE_MAY_ESCAPE
    ∧ 7 ∈ (classify_heap_write (fun _ => 7)
        ⟨fun _ => PtrVal.set [⟨Opcode.load_param_object, [], 10, 0, false, 0, 0⟩,
            ⟨Opcode.other, [], 11, 0, false, 0, 0⟩],
          fun i => i.uid == 11⟩ 0 {}).modified_params := by
  refine ⟨(classify_heap_write_correct (fun _ => 7)
      ⟨fun _ => PtrVal.top, fun _ => false⟩ 0 { effects := 1 }).1 rfl, ?_, ?_⟩
  · exact ((classify_heap_write_correct (fun _ => 7)
        ⟨fun _ => PtrVal.set [⟨Opcode.load_param_object, [], 10, 0, false, 0, 0⟩,
            ⟨Opcode.other, [], 11, 0, false, 0, 0⟩],
          fun i => i.uid == 11⟩ 0 {}).2 _ rfl).1
      ⟨Opcode.other, [], 11, 0, false, 0, 0⟩ (by simp) (by decide)
  · exact ((classify_heap_write_correct (fun _ => 7)
        ⟨fun _ => PtrVal.set [⟨Opcode.load_param_object, [], 10, 0, false, 0, 0⟩,
            ⟨Opcode.other, [], 11, 0, false, 0, 0⟩],
          fun i => i.uid == 11⟩ 0 {}).2 _ rfl).2.1
      ⟨Opcode.load_param_object, [], 10, 0, false, 0, 0⟩ (by simp) (by decide)
      rfl

/-- C9: a heap write through a register whose pointer abstract value is the
concrete empty set of allocation sites leaves the summary completely
unchanged. -/
theorem classify_empty_pointer_set_noop (pmap : Instr → Nat) (env : PtrEnv)
    (r : Nat) (s : Summary) (h : env.get_pointers r = PtrVal.set []) :
    classify_heap_write pmap env r s = s :=
  classify_set pmap env s h

/-- Witness for C9 at a concrete environment and summary. -/
theorem classify_empty_pointer_set_noop_witness :
    classify_heap_write (fun _ => 0)
        ⟨fun _ => PtrVal.set [], fun _ => true⟩ 3
        { effects := 5, modified_params := {1} }
      = { effects := 5, modified_params := {1} } :=
  classify_empty_pointer_set_noop (fun _ => 0)
    ⟨fun _ => PtrVal.set [], fun _ => true⟩ 3
    { effects := 5, modified_params := {1} } rfl

/-- C2: an invoke-super or invoke-interface instruction, and an
invoke-static, invoke-direct or invoke-virtual instruction whose callee has
no entry in the invoke-to-summary map, both set the unknown-invoke effect. -/
theorem unknown_invoke_conservative (pmap : Instr → Nat)
    (invoke_map : Instr → Option Summary) (env : PtrEnv) (insn : Instr)
    (s : Summary) :
    ((insn.opcode = Opcode.invoke_super ∨
        insn.opcode = Opcode.invoke_interface) →
      analyze_instruction_effects pmap invoke_map env insn s
        = { s with effects := s.effects ||| EFF_UNKNOWN_INVOKE })
    ∧ ((insn.opcode = Opcode.invoke_static ∨
          insn.opcode = Opcode.invoke_direct ∨
          insn.opcode = Opcode.invoke_virtual) →
        invoke_map insn = none →
        analyze_instruction_effects pmap invoke_map env insn s
          = { s with effects := s.effects ||| EFF_UNKNOWN_INVOKE }) := by
  constructor
  · rintro (h | h) <;> simp [analyze_instruction_effects, h]
  · rintro (h | h | h) hm <;> simp [analyze_instruction_effects, h, hm]

/-- Witness for C2: a concrete invoke-super instruction and a concrete
invoke-static instruction with an empty invoke-to-summary map. -/
theorem unknown_invoke_conservative_witness :
    analyze_instruction_effects (fun _ => 0) (fun _ => none)
        ⟨fun _ => PtrVal.top, fun _ => false⟩
        ⟨Opcode.invoke_super, [], 0, 0, false, 0, 0⟩ {}
      = { effects := EFF_UNKNOWN_INVOKE }
    ∧ analyze_instruction_effects (fun _ => 0) (fun _ => none)
        ⟨fun _ => PtrVal.top, fun _ => false⟩
        ⟨Opcode.invoke_static, [], 0, 0, false, 0, 0⟩ {}
      = { effects := EFF_UNKNOWN_INVOKE } := by
  constructor
  · rw [(unknown_invoke_conservative (fun _ => 0) (fun _ => none)
        ⟨fun _ => PtrVal.top, fun _ => false⟩
        ⟨Opcode.invoke_super, [], 0, 0, false, 0, 0⟩ {}).1 (Or.inl rfl)]
    decide
  · rw [(unknown_invoke_conservative (fun _ => 0) (fun _ => none)
        ⟨fun _ => PtrVal.top, fun _ => false⟩
        ⟨Opcode.invoke_static, [], 0, 0, false, 0, 0⟩ {}).2 (Or.inl rfl) rfl]
    decide

theorem analyze_invoke_some (pmap : Instr → Nat)
    (invoke_map : Instr → Option Summary) (env : PtrEnv) (insn : Instr)
    (s cs : Summary)
    (hop : insn.opcode = Opcode.invoke_static ∨
      insn.opcode = Opcode.invoke_direct ∨
      insn.opcode = Opcode.invoke_virtual)
    (hcs : invoke_map insn = some cs) :
    analyze_instruction_effects pmap invoke_map env insn s
      = (cs.modified_params.sort (· ≤ ·)).foldl
          (fun t idx => classify_heap_write pmap env (insn.src idx) t)
          { s with effects := s.effects ||| cs.effects } := by
  rcases hop with h | h | h <;> simp [analyze_instruction_effects, h, hcs]

theorem foldl_classify_idx_effects_mono {e : Nat} (pmap : Instr → Nat)
    (env : PtrEnv) (insn : Instr) :
    ∀ (l : List Nat) (t : Summary), hasEff t.effects e →
      hasEff ((l.foldl
        (fun t idx => classify_heap_write pmap env (insn.src idx) t)
        t)).effects e := by
  intro l
  induction l with
  | nil => intro t h; exact h
  | cons b r ih =>
      intro t h
      exact ih _ (classify_effects_mono pmap env _ t h)

theorem foldl_classify_idx_params_mono {i : Nat} (pmap : Instr → Nat)
    (env : PtrEnv) (insn : Instr) :
    ∀ (l : List Nat) (t : Summary), i ∈ t.modified_params →
      i ∈ ((l.foldl
        (fun t idx => classify_heap_write pmap env (insn.src idx) t)
        t)).modified_params := by
  intro l
  induction l with
  | nil => intro t h; exact h
  | cons b r ih =>
      intro t h
      exact ih _ (classify_params_mono pmap env _ t h)

theorem foldl_classify_idx_top (pmap : Instr → Nat) (env : PtrEnv)
    (insn : Instr) {idx : Nat} :
    ∀ (l : List Nat) (t : Summary), idx ∈ l →
      env.get_pointers (insn.src idx) = PtrVal.top →
      hasEff ((l.foldl
        (fun t j => classify_heap_write pmap env (insn.src j) t)
        t)).effects EFF_WRITE_MAY_ESCAPE := by
  intro l
  induction l with
  | nil => intro t h; cases h
  | cons b r ih =>
      intro t hmem htop
      rcases List.mem_cons.mp hmem with hb | hr
      · subst hb
        rw [List.foldl_cons]
        apply foldl_classify_idx_effects_mono
        rw [classify_top pmap env t htop]
        exact hasEff_lor_self t.effects EFF_WRITE_MAY_ESCAPE
      · exact ih _ hr htop

theorem foldl_classify_idx_set_escaped (pmap : Instr → Nat) (env : PtrEnv)
    (insn : Instr) {idx : Nat} {la : List Instr} {a : Instr} :
    ∀ (l : List Nat) (t : Summary), idx ∈ l →
      env.get_pointers (insn.src idx) = PtrVal.set la →
      a ∈ la → env.may_have_escaped a = true →
      hasEff ((l.foldl
        (fun t j => classify_heap_write pmap env (insn.src j) t)
        t)).effects EFF_WRITE_MAY_ESCAPE := by
  intro l
  induction l with
  | nil => intro t h; cases h
  | cons b r ih =>
      intro t hmem hset ha hesc
      rcases List.mem_cons.mp hmem with hb | hr
      · subst hb
        rw [List.foldl_cons]
        apply foldl_classify_idx_effects_mono
        rw [classify_set pmap env t hset]
        exact foldl_classify_step_escaped pmap env la t ha hesc
      · exact ih _ hr hset ha hesc

theorem foldl_classify_idx_set_param (pmap : Instr → Nat) (env : PtrEnv)
    (insn : Instr) {idx : Nat} {la : List Instr} {a : Instr} :
    ∀ (l : List Nat) (t : Summary), idx ∈ l →
      env.get_pointers (insn.src idx) = PtrVal.set la →
      a ∈ la → env.may_have_escaped a = false →
      a.opcode = Opcode.load_param_object →
      pmap a ∈ ((l.foldl
        (fun t j => classify_heap_write pmap env (insn.src j) t)
        t)).modified_params := by
  intro l
  induction l with
  | nil => intro t h; cases h
  | cons b r ih =>
      intro t hmem hset ha hesc hopc
      rcases List.mem_cons.mp hmem with hb | hr
      · subst hb
        rw [List.foldl_cons]
        apply foldl_classify_idx_params_mono
        rw [classify_set pmap env t hset]
        exact foldl_classify_step_param_mem pmap env la t ha hesc hopc
      · exact ih _ hr hset ha hesc hopc

/-- C3: an invoke-static, invoke-direct or invoke-virtual instruction whose
callee summary is present imports the callee's entire effects bitset (and
keeps the caller's accumulated effects and modified parameters), and
re-classifies each of the callee's modified parameters through the caller's
pointer environment at the corresponding source register of the invoke. -/
theorem invoke_with_summary_imports (pmap : Instr → Nat)
    (invoke_map : Instr → Option Summary) (env : PtrEnv) (insn : Instr)
    (s cs : Summary)
    (hop : insn.opcode = Opcode.invoke_static ∨
      insn.opcode = Opcode.invoke_direct ∨
      insn.opcode = Opcode.invoke_virtual)
    (hcs : invoke_map insn = some cs) :
    hasEff (analyze_instruction_effects pmap invoke_map env insn s).effects
      cs.effects
    ∧ hasEff (analyze_instruction_effects pmap invoke_map env insn s).effects
        s.effects
    ∧ (∀ i ∈ s.modified_params,
        i ∈ (analyze_instruction_effects pmap invoke_map env insn
          s).modified_params)
    ∧ (∀ idx ∈ cs.modified_params,
        (env.get_pointers (insn.src idx) = PtrVal.top →
          hasEff (analyze_instruction_effects pmap invoke_map env insn
            s).effects EFF_WRITE_MAY_ESCAPE)
        ∧ ∀ la, env.get_pointers (insn.src idx) = PtrVal.set la →
            ∀ a ∈ la,
              (env.may_have_escaped a = true →
                hasEff (analyze_instruction_effects pmap invoke_map env insn
                  s).effects EFF_WRITE_MAY_ESCAPE)
              ∧ (env.may_have_escaped a = false →
                  a.opcode = Opcode.load_param_object →
                  pmap a ∈ (analyze_instruction_effects pmap invoke_map env
                    insn s).modified_params)) := by
  rw [analyze_invoke_some pmap invoke_map env insn s cs hop hcs]
  refine ⟨?_, ?_, ?_, ?_⟩
  · exact foldl_classify_idx_effects_mono pmap env insn _ _
      (hasEff_lor_self s.effects cs.effects)
  · exact foldl_classify_idx_effects_mono pmap env insn _ _
      (hasEff_lor_base s.effects cs.effects)
  · intro i hi
    exact foldl_classify_idx_params_mono pmap env insn _ _ hi
  · intro idx hidx
    have hmem : idx ∈ cs.modified_params.sort (· ≤ ·) :=
      (Finset.mem_sort (· ≤ ·)).mpr hidx
    refine ⟨fun htop => foldl_classify_idx_top pmap env insn _ _ hmem htop,
      fun la hset a ha => ⟨fun hesc => ?_, fun hesc hopc => ?_⟩⟩
    · exact foldl_classify_idx_set_escaped pmap env insn _ _ hmem hset ha hesc
    · exact foldl_classify_idx_set_param pmap env insn _ _ hmem hset ha hesc
        hopc

/-- Witness for C3: a concrete invoke-virtual whose callee summary has the
throws effect and modified parameter 1; the caller's pointer value at source
register 1 is top, so the caller gains both throws and escaping-write. -/
theorem invoke_with_summary_imports_witness :
    hasEff ((analyze_instruction_effects (fun _ => 0)
        (fun _ => some ⟨EFF_THROWS, {1}⟩) ⟨fun _ => PtrVal.top, fun _ => false⟩
        ⟨Opcode.invoke_virtual, [5, 9], 0, 0, false, 0, 0⟩ {}).effects)
      EFF_THROWS
    ∧ hasEff ((analyze_instruction_effects (fun _ => 0)
        (fun _ => some ⟨EFF_THROWS, {1}⟩) ⟨fun _ => PtrVal.top, fun _ => false⟩
        ⟨Opcode.invoke_virtual, [5, 9], 0, 0, false, 0, 0⟩ {}).effects)
      EFF_WRITE_MAY_ESCAPE := by
  have h := invoke_with_summary_imports (fun _ => 0)
    (fun _ => some ⟨EFF_THROWS, {1}⟩) ⟨fun _ => PtrVal.top, fun _ => false⟩
    ⟨Opcode.invoke_virtual, [5, 9], 0, 0, false, 0, 0⟩ {} ⟨EFF_THROWS, {1}⟩
    (Or.inr (Or.inr rfl)) rfl
  exact ⟨h.1, (h.2.2.2 1 (by decide)).1 rfl⟩

/-- Modelled from the spec: the signed-integer constant domain of
`ConstantPropagationTransform.h` (its definition lives in the missing
`ConstantEnvironment.h`).  The spec describes it as having `top`, `bottom`
and ranges, with an exact constant exactly when the range is degenerate. -/
inductive SignedConstantDomain where
  | bottom
  | top
  | interval (lo hi : Int)
deriving DecidableEq

/-- Modelled from the spec: `SignedConstantDomain::get_constant` returns a
value only when the domain proves a single exact constant. -/
def SignedConstantDomain.get_constant : SignedConstantDomain → Option Int
  | SignedConstantDomain.interval lo hi => if lo = hi then some lo else none
  | _ => none

/-- Modelled from the spec: the string-constant domain (definition in the
missing `ConstantEnvironment.h`); `lit` holds a known string constant,
identified by its `DexString` reference. -/
inductive StringDomain where
  | bottom
  | top
  | lit (sid : Nat)
deriving DecidableEq

/-- Modelled from the spec: `StringDomain::get_constant`. -/
def StringDomain.get_constant : StringDomain → Option Nat
  | StringDomain.lit sid => some sid
  | _ => none

/-- The tagged union of abstract-domain kinds dispatched over by
`boost::static_visitor` in `value_to_instruction_visitor`; `other` stands for
every domain kind handled by the template catch-all overload. -/
inductive ConstantValue where
  | signed (d : SignedConstantDomain)
  | strdom (d : StringDomain)
  | other
deriving DecidableEq

/-- `constant_propagation::value_to_instruction_visitor`: generate the
replacement instruction sequence for an instruction whose destination value
is known. -/
def value_to_instruction_visitor (original : Instr) :
    ConstantValue → List Instr
  | ConstantValue.signed dom =>
      match dom.get_constant with
      | none => []
      | some cst =>
          [{ opcode := if original.dest_is_wide then Opcode.const_wide
               else Opcode.const,
             dest := original.dest, literal := cst }]
  | ConstantValue.strdom dom =>
      match dom.get_constant with
      | none => []
      | some cst =>
          [{ opcode := Opcode.const_string, string_ref := cst },
           { opcode := Opcode.move_result_pseudo_object,
             dest := original.dest }]
  | ConstantValue.other => []

/-- C7: with an exact signed constant the visitor emits exactly one
constant-load carrying the original destination and the literal, wide iff the
original destination is wide; with a known string constant it emits exactly
the load-string / move-result-pseudo pair; with no exact constant (top,
non-degenerate range, bottom, or another domain kind) it emits nothing. -/
theorem value_to_instruction_correct (original : Instr) :
    (∀ c : Int,
      value_to_instruction_visitor original
          (ConstantValue.signed (SignedConstantDomain.interval c c))
        = [{ opcode := if original.dest_is_wide then Opcode.const_wide
               else Opcode.const,
             dest := original.dest, literal := c }])
    ∧ (∀ lo hi : Int, lo ≠ hi →
        value_to_instruction_visitor original
          (ConstantValue.signed (SignedConstantDomain.interval lo hi)) = [])
    ∧ value_to_instruction_visitor original
        (ConstantValue.signed SignedConstantDomain.top) = []
    ∧ value_to_instruction_visitor original
        (ConstantValue.signed SignedConstantDomain.bottom) = []
    ∧ (∀ sid : Nat,
        value_to_instruction_visitor original
            (ConstantValue.strdom (StringDomain.lit sid))
          = [{ opcode := Opcode.const_string, string_ref := sid },
             { opcode := Opcode.move_result_pseudo_object,
               dest := original.dest }])
    ∧ value_to_instruction_visitor original
        (ConstantValue.strdom StringDomain.top) = []
    ∧ value_to_instruction_visitor original
        (ConstantValue.strdom StringDomain.bottom) = []
    ∧ value_to_instruction_visitor original ConstantValue.other = [] := by
  refine ⟨fun c => ?_, fun lo hi h => ?_, rfl, rfl, fun sid => rfl, rfl, rfl,
    rfl⟩
  · simp [value_to_instruction_visitor, SignedConstantDomain.get_constant]
  · simp [value_to_instruction_visitor, SignedConstantDomain.get_constant, h]

/-- Witness for C7: a wide-destination original with the exact constant 42
produces the wide constant-load; a non-degenerate range produces nothing. -/
theorem value_to_instruction_correct_witness :
    value_to_instruction_visitor ⟨Opcode.other, [], 0, 3, true, 0, 0⟩
        (ConstantValue.signed (SignedConstantDomain.interval 42 42))
      = [⟨Opcode.const_wide, [], 0, 3, false, 42, 0⟩]
    ∧ value_to_instruction_visitor ⟨Opcode.other, [], 0, 3, true, 0, 0⟩
        (ConstantValue.signed (SignedConstantDomain.interval 0 1)) = [] := by
  constructor
  · rw [(value_to_instruction_correct
      ⟨Opcode.other, [], 0, 3, true, 0, 0⟩).1 42]
    rfl
  · exact (value_to_instruction_correct
      ⟨Opcode.other, [], 0, 3, true, 0, 0⟩).2.1 0 1 (by decide)

/-- `Configurable::parse_required` (src/libredex/Configurable.h): look the
parameter up through the configuration lookup member (here `m_lookup`, a
renaming); on a hit assign the converted value, on a
miss fail fatally (`always_assert_log`), modelled as `none`.  The JSON value
type and the `Configurable::as<T>` conversion (whose specializations are not
part of the excerpt) are opaque parameters. -/
def parse_required {J T : Type} (as_conv : J → Nat → T)
    (m_lookup : String → Option J) (name : String) (bindflags : Nat) :
    Option T :=
  match m_lookup name with
  | some value => some (as_conv value bindflags)
  | none => none

/-- `Configurable::bind_required`: when not reflecting, dispatch to
`parse_required`; when reflecting, only record metadata and leave the
destination unchanged. -/
def bind_required {J T : Type} (m_reflecting : Bool) (as_conv : J → Nat → T)
    (m_lookup : String → Option J) (name : String) (dest : T)
    (bindflags : Nat) : Option T :=
  if m_reflecting then some dest
  else parse_required as_conv m_lookup name bindflags

/-- C10: `parse_required` fails fatally whenever the configuration has no
value for the parameter, assigns the converted value whenever it is present,
and is exactly what a non-reflecting `bind_required` runs; it never yields a
defaulted destination on a missing required parameter. -/
theorem parse_required_correct {J T : Type} (as_conv : J → Nat → T)
    (m_lookup : String → Option J) (name : String) (dest : T)
    (bindflags : Nat) :
    (m_lookup name = none →
      parse_required as_conv m_lookup name bindflags = none)
    ∧ (∀ v, m_lookup name = some v →
        parse_required as_conv m_lookup name bindflags
          = some (as_conv v bindflags))
    ∧ bind_required false as_conv m_lookup name dest bindflags
        = parse_required as_conv m_lookup name bindflags := by
  refine ⟨fun h => ?_, fun v h => ?_, rfl⟩ <;> simp [parse_required, h]

/-- Witness for C10: a concrete parser with exactly one bound parameter. -/
theorem parse_required_correct_witness :
    parse_required (fun v _ => v + 1)
        (fun n => if n = "present" then some 5 else none) "present" 0
      = some 6
    ∧ parse_required (fun v _ => v + 1)
        (fun n => if n = "present" then some 5 else none) "missing" 0
      = none := by
  constructor
  · rw [(parse_required_correct (fun v _ => v + 1)
      (fun n => if n = "present" then some 5 else none) "present" 0 0).2.1 5
      (by simp)]
  · exact (parse_required_correct (fun v _ => v + 1)
      (fun n => if n = "present" then some 5 else none) "missing" 0 0).1
      (by simp)

/-- Modelled from the spec: sparta s-expressions, the serialized summary
format — string atoms, 32-bit integer atoms and nested lists. -/
inductive SExpr where
  | str (s : String)
  | i32 (v : Int)
  | list (es : List SExpr)

/-- Modelled from the spec: `s_expr::get_int32` succeeds exactly on an
integer atom (it asserts otherwise). -/
def SExpr.get_int32 : SExpr → Option Int
  | SExpr.i32 v => some v
  | _ => none

/-- The whitespace characters skipped by `std::stoi` (C locale `isspace`):
space, tab, newline, vertical tab, form feed, carriage return. -/
def isSpaceChar (c : Char) : Bool :=
  c == Char.ofNat 32 || c == Char.ofNat 9 || c == Char.ofNat 10 ||
  c == Char.ofNat 11 || c == Char.ofNat 12 || c == Char.ofNat 13

/-- The value of a decimal digit string, accumulated left to right as
`std::stoi` does. -/
def digitsVal (l : List Char) : Nat :=
  l.foldl (fun a c => 10 * a + (c.toNat - 48)) 0

/-- Model of `std::stoi`: skip leading whitespace, accept an optional sign,
convert the longest leading run of decimal digits and ignore what follows;
fail (`std::invalid_argument`) when that run is empty, and fail
(`std::out_of_range`) when the value does not fit in a 32-bit `int`. -/
def stoiSign : List Char → Int × List Char
  | c :: rest =>
      if c = '-' then (-1, rest)
      else if c = '+' then (1, rest)
      else (1, c :: rest)
  | [] => (1, [])

def stoi (s : String) : Option Int :=
  let signed : Int × List Char := stoiSign (s.data.dropWhile isSpaceChar)
  let ds := signed.2.takeWhile Char.isDigit
  if ds.isEmpty then none
  else
    let v : Int := signed.1 * (digitsVal ds : Nat)
    if v < -(2 ^ 31) ∨ (2 ^ 31 : Int) - 1 < v then none else some v

/-- Model of `std::to_string` on an unsigned value: the decimal digit
string, most significant digit first. -/
def decimalString (n : Nat) : String :=
  if n = 0 then "0"
  else String.mk (((Nat.digits 10 n).reverse).map (fun d => Char.ofNat (48 + d)))

/-- `side_effects::to_s_expr`: the effects bitset as its decimal string,
followed by the list of modified-parameter indices as integer atoms.  The
iteration over the unordered set is modelled over the sorted element list
(the reconstructed set does not depend on the order). -/
def to_s_expr (summary : Summary) : SExpr :=
  SExpr.list [SExpr.str (decimalString summary.effects),
    SExpr.list ((summary.modified_params.sort (· ≤ ·)).map
      (fun idx => SExpr.i32 (Int.ofNat idx)))]

/-- The element-wise `get_int32` of the parameter-index list read by
`Summary::from_s_expr`; `none` as soon as one element is not an integer
atom. -/
def get_int32_list : List SExpr → Option (List Int)
  | [] => some []
  | e :: rest =>
      match e.get_int32, get_int32_list rest with
      | some v, some vs => some (v :: vs)
      | _, _ => none

/-- `Summary::from_s_expr`: `none` models the fatal `always_assert` /
uncaught `std::stoi` exception paths.  The conversions of the parsed `int`
to the effects field and of each `int32` to a parameter index are modelled
with `Int.toNat` (the exact C++ integer widths live in the missing
`SideEffectSummary.h`; no claim exercises a negative value). -/
def Summary.from_s_expr (expr : SExpr) : Option Summary :=
  match expr with
  | SExpr.list [e0, e1] =>
      match e0 with
      | SExpr.str s0 =>
          match stoi s0 with
          | some v =>
              match e1 with
              | SExpr.list elems =>
                  match get_int32_list elems with
                  | some vs =>
                      some { effects := v.toNat,
                             modified_params :=
                               vs.foldl (fun ps i => insert i.toNat ps) ∅ }
                  | none => none
              | _ => none
          | none => none
      | _ => none
  | _ => none

theorem toChar_digit_isDigit {d : Nat} (h : d < 10) :
    (Char.ofNat (48 + d)).isDigit = true := by
  interval_cases d <;> decide

theorem toChar_digit_toNat {d : Nat} (h : d < 10) :
    (Char.ofNat (48 + d)).toNat - 48 = d := by
  interval_cases d <;> decide

theorem isDigit_not_space {c : Char} (h : c.isDigit = true) :
    isSpaceChar c = false := by
  cases hc : isSpaceChar c with
  | false => rfl
  | true =>
      exfalso
      unfold isSpaceChar at hc
      simp only [Bool.or_eq_true, beq_iff_eq] at hc
      rcases hc with ((((h1 | h1) | h1) | h1) | h1) | h1 <;> subst h1 <;>
        exact absurd h (by decide)

theorem takeWhile_all {p : Char → Bool} :
    ∀ l : List Char, (∀ c ∈ l, p c = true) → l.takeWhile p = l := by
  intro l
  induction l with
  | nil => intro _; rfl
  | cons c t ih =>
      intro h
      rw [List.takeWhile_cons, h c (List.mem_cons_self c t)]
      simp [ih (fun a ha => h a (List.mem_cons_of_mem c ha))]

theorem foldl_digit_congr :
    ∀ (l : List Nat) (acc : Nat), (∀ d ∈ l, d < 10) →
      l.foldl (fun a d => 10 * a + ((Char.ofNat (48 + d)).toNat - 48)) acc
        = l.foldl (fun a d => 10 * a + d) acc := by
  intro l
  induction l with
  | nil => intro _ _; rfl
  | cons d t ih =>
      intro acc h
      rw [List.foldl_cons, List.foldl_cons,
        toChar_digit_toNat (h d (List.mem_cons_self d t))]
      exact ih _ (fun a ha => h a (List.mem_cons_of_mem d ha))

theorem digitsVal_map (l : List Nat) (h : ∀ d ∈ l, d < 10) :
    digitsVal (l.map (fun d => Char.ofNat (48 + d)))
      = l.foldl (fun a d => 10 * a + d) 0 := by
  unfold digitsVal
  rw [List.foldl_map]
  exact foldl_digit_congr l 0 h

theorem foldl_reverse_ofDigits :
    ∀ l : List Nat, l.reverse.foldl (fun a d => 10 * a + d) 0
      = Nat.ofDigits 10 l := by
  intro l
  induction l with
  | nil => rfl
  | cons d t ih =>
      rw [List.reverse_cons, List.foldl_append, ih, Nat.ofDigits_cons]
      simp only [List.foldl_cons, List.foldl_nil]
      omega

theorem isDigit_ne_minus {c : Char} (h : c.isDigit = true) : ¬(c = '-') :=
  fun he => by subst he; exact absurd h (by decide)

theorem isDigit_ne_plus {c : Char} (h : c.isDigit = true) : ¬(c = '+') :=
  fun he => by subst he; exact absurd h (by decide)

theorem stoi_all_digits (l : List Char) (hne : l ≠ [])
    (hall : ∀ c ∈ l, c.isDigit = true) (hlt : digitsVal l < 2 ^ 31) :
    stoi (String.mk l) = some (digitsVal l : Int) := by
  obtain ⟨c0, cs, rfl⟩ := List.exists_cons_of_ne_nil hne
  have hc0 : c0.isDigit = true := hall c0 (List.mem_cons_self _ _)
  have hns : isSpaceChar c0 = false := isDigit_not_space hc0
  have hdrop : (c0 :: cs).dropWhile isSpaceChar = c0 :: cs := by
    rw [List.dropWhile_cons, hns]
    simp
  have htake : (c0 :: cs).takeWhile Char.isDigit = c0 :: cs :=
    takeWhile_all _ hall
  have hsign : stoiSign (c0 :: cs) = (1, c0 :: cs) := by
    rw [stoiSign, if_neg (isDigit_ne_minus hc0), if_neg (isDigit_ne_plus hc0)]
  simp only [stoi, String.data]
  rw [hdrop, hsign]
  simp only [htake]
  rw [if_neg (by simp)]
  rw [one_mul, if_neg (by push_cast; omega)]

theorem stoi_decimalString {n : Nat} (h : n < 2 ^ 31) :
    stoi (decimalString n) = some (n : Int) := by
  by_cases h0 : n = 0
  · subst h0
    decide
  · have hd10 : ∀ d ∈ Nat.digits 10 n, d < 10 :=
      fun d hd => Nat.digits_lt_base (by norm_num) hd
    have hd10r : ∀ d ∈ (Nat.digits 10 n).reverse, d < 10 :=
      fun d hd => hd10 d (List.mem_reverse.mp hd)
    have hval : digitsVal (((Nat.digits 10 n).reverse).map
        (fun d => Char.ofNat (48 + d))) = n := by
      rw [digitsVal_map _ hd10r, foldl_reverse_ofDigits,
        Nat.ofDigits_digits]
    have hall : ∀ c ∈ ((Nat.digits 10 n).reverse).map
        (fun d => Char.ofNat (48 + d)), c.isDigit = true := by
      intro c hc
      obtain ⟨d, hd, rfl⟩ := List.mem_map.mp hc
      exact toChar_digit_isDigit (hd10r d hd)
    have hne : ((Nat.digits 10 n).reverse).map
        (fun d => Char.ofNat (48 + d)) ≠ [] := by
      simp [Nat.digits_ne_nil_iff_ne_zero.mpr h0]
    rw [decimalString, if_neg h0,
      stoi_all_digits _ hne hall (by rw [hval]; exact h), hval]

theorem get_int32_list_map (l : List Int) :
    get_int32_list (l.map SExpr.i32) = some l := by
  induction l with
  | nil => rfl
  | cons v t ih => simp [get_int32_list, SExpr.get_int32, ih]

theorem get_int32_list_eq_map :
    ∀ {elems : List SExpr} {vs : List Int},
      get_int32_list elems = some vs → elems = vs.map SExpr.i32 := by
  intro elems
  induction elems with
  | nil =>
      intro vs h
      simp only [get_int32_list, Option.some.injEq] at h
      rw [← h]
      rfl
  | cons e rest ih =>
      intro vs h
      simp only [get_int32_list] at h
      cases he : e.get_int32 with
      | none => rw [he] at h; cases h
      | some v =>
          rw [he] at h
          cases hr : get_int32_list rest with
          | none => rw [hr] at h; cases h
          | some ws =>
              rw [hr] at h
              simp only [Option.some.injEq] at h
              subst h
              have he2 : e = SExpr.i32 v := by
                cases e with
                | i32 w =>
                    simp only [SExpr.get_int32, Option.some.injEq] at he
                    rw [he]
                | str a => simp [SExpr.get_int32] at he
                | list es => simp [SExpr.get_int32] at he
              rw [he2, ih hr, List.map_cons]

theorem foldl_insert_toNat :
    ∀ (l : List Int) (s0 : Finset Nat),
      l.foldl (fun ps i => insert i.toNat ps) s0
        = s0 ∪ (l.map Int.toNat).toFinset := by
  intro l
  induction l with
  | nil => intro s0; simp
  | cons i t ih =>
      intro s0
      rw [List.foldl_cons, ih]
      ext a
      simp only [List.map_cons, List.toFinset_cons, Finset.mem_union,
        Finset.mem_insert]
      tauto

/-- C5: parsing the serialized s-expression of any summary value returns an
equal summary.  The hypothesis `s.effects < 32` says the effects field is a
bitset over the five effect flags (every OR-combination of
`EFF_THROWS | EFF_LOCKS | EFF_WRITE_MAY_ESCAPE | EFF_UNKNOWN_INVOKE |
EFF_NO_OPTIMIZE` is below 32), which keeps the decimal string within the
31-bit range `std::stoi` accepts. -/
theorem summary_s_expr_roundtrip (s : Summary) (h : s.effects < 32) :
    Summary.from_s_expr (to_s_expr s) = some s := by
  obtain ⟨eff, mp⟩ := s
  simp only [to_s_expr, Summary.from_s_expr]
  rw [show ((mp.sort (· ≤ ·)).map (fun idx => SExpr.i32 (Int.ofNat idx)))
      = ((mp.sort (· ≤ ·)).map Int.ofNat).map SExpr.i32 from by
    rw [List.map_map]; rfl]
  rw [stoi_decimalString (lt_trans h (by norm_num)), get_int32_list_map]
  show some ({ effects := ((eff : Int)).toNat,
               modified_params := List.foldl (fun ps i => insert i.toNat ps) ∅
                 ((mp.sort (· ≤ ·)).map Int.ofNat) } : Summary)
    = some ({ effects := eff, modified_params := mp } : Summary)
  rw [foldl_insert_toNat, List.map_map,
    show (Int.toNat ∘ Int.ofNat) = (fun n : Nat => n) from
      funext (fun n => Int.toNat_ofNat n),
    List.map_id', Finset.sort_toFinset]
  simp

/-- Witness for C5 at a concrete summary with all five effect flags and two
modified parameters. -/
theorem summary_s_expr_roundtrip_witness :
    Summary.from_s_expr (to_s_expr { effects := 31, modified_params := {0, 2} })
      = some { effects := 31, modified_params := {0, 2} } :=
  summary_s_expr_roundtrip { effects := 31, modified_params := {0, 2} }
    (by norm_num)

/-- Counterexample for C6: the atom `"12abc"` is not a decimal integer, yet
`from_s_expr` silently returns a summary for it — `std::stoi` converts the
longest digit prefix `12` and ignores the trailing characters, so no assert
fires and no exception is thrown. -/
theorem from_s_expr_accepts_trailing_garbage :
    Summary.from_s_expr (SExpr.list [SExpr.str "12abc", SExpr.list []])
      = some { effects := 12 } := by
  decide

/-- C6 amended: `from_s_expr` fails fatally exactly when the input is not a
two-element list of a string atom and a list of integer atoms, or when the
string's longest leading decimal-digit run (after optional whitespace and
sign) is empty or yields a value outside the 32-bit int range; in
particular a string atom is accepted — rather than rejected — whenever an
integer prefix parses, even with trailing non-integer characters. -/
theorem from_s_expr_rejects_malformed (e : SExpr) :
    Summary.from_s_expr e = none ↔
      ¬ ∃ (s0 : String) (l : List Int),
          e = SExpr.list [SExpr.str s0, SExpr.list (l.map SExpr.i32)]
          ∧ (stoi s0).isSome = true := by
  constructor
  · rintro h ⟨s0, l, rfl, hs⟩
    obtain ⟨v, hv⟩ := Option.isSome_iff_exists.mp hs
    simp only [Summary.from_s_expr, hv, get_int32_list_map] at h
    exact Option.noConfusion h
  · intro hn
    cases e with
    | str s0 => rfl
    | i32 v => rfl
    | list es =>
        cases es with
        | nil => rfl
        | cons e0 rest0 =>
            cases rest0 with
            | nil => rfl
            | cons e1 rest1 =>
                cases rest1 with
                | cons e2 rest2 => rfl
                | nil =>
                    cases e0 with
                    | i32 v => rfl
                    | list es0 => rfl
                    | str s0 =>
                        cases hst : stoi s0 with
                        | none => simp [Summary.from_s_expr, hst]
                        | some v =>
                            cases e1 with
                            | str s1 => simp [Summary.from_s_expr, hst]
                            | i32 w => simp [Summary.from_s_expr, hst]
                            | list elems =>
                                cases hg : get_int32_list elems with
                                | none =>
                                    simp [Summary.from_s_expr, hst, hg]
                                | some vs =>
                                    exact absurd
                                      ⟨s0, vs,
                                        by rw [get_int32_list_eq_map hg],
                                        by rw [hst]; rfl⟩ hn

/-- Witness for C6's amended theorem: a non-list s-expression is rejected. -/
theorem from_s_expr_rejects_malformed_witness :
    Summary.from_s_expr (SExpr.i32 0) = none :=
  (from_s_expr_rejects_malformed (SExpr.i32 0)).mpr
    (by rintro ⟨s0, l, h, _⟩; exact SExpr.noConfusion h)

/-- Modelled from the spec: a basic block of a control-flow graph, a list of
instructions. -/
structure Block where
  insns : List Instr

/-- Modelled from the spec: a method body — its load-param instructions (as
iterated by `code->get_param_instructions()`) followed by the CFG blocks. -/
structure IRCode where
  param_insns : List Instr
  blocks : List Block

/-- Modelled from the spec: the already-computed local-pointers fixpoint for
one method: the abstract environment at each block entry (`none` models a
bottom, unreachable entry state) and the instruction transfer function. -/
structure FixpointIterator where
  entry_state_at : Block → Option PtrEnv
  analyze_instruction : Instr → PtrEnv → PtrEnv

/-- The load-param-instruction-to-index map built in the `SummaryBuilder`
constructor (`m_param_insn_map`); indices are assigned in iteration order
starting at 0.  `.at` presumes membership, so a total function suffices. -/
def param_insn_map (code : IRCode) : Instr → Nat :=
  fun insn => code.param_insns.indexOf insn

/-- `SummaryBuilder::build`: fold the per-instruction effect analysis over
every block whose entry state is not bottom, replaying the pointer-analysis
transfer function over the block's instructions. -/
def build (pmap : Instr → Nat) (invoke_map : Instr → Option Summary)
    (fp : FixpointIterator) (code : IRCode) : Summary :=
  code.blocks.foldl
    (fun summary block =>
      match fp.entry_state_at block with
      | none => summary
      | some env0 =>
          (block.insns.foldl
            (fun p insn =>
              (analyze_instruction_effects pmap invoke_map p.2 insn p.1,
               fp.analyze_instruction insn p.2))
            (summary, env0)).1)
    {}

/-- `side_effects::analyze_code`: construct the `SummaryBuilder` (which
builds the param-instruction map) and run it. -/
def analyze_code (invoke_map : Instr → Option Summary)
    (fp : FixpointIterator) (code : IRCode) : Summary :=
  build (param_insn_map code) invoke_map fp code

/-- Modelled from the spec: a call-graph edge — the resolved callee and the
originating invoke instruction (`edge->invoke_iterator()->insn`). -/
structure Edge (M : Type) where
  callee : M
  invoke_insn : Instr

/-- Modelled from the spec: the call graph — node membership and the
outgoing call edges of each method. -/
structure CallGraph (M : Type) where
  has_node : M → Bool
  callees : M → List (Edge M)

/-- Modelled from the spec: the per-method inputs of the driver — the method
body (`none` for `get_code() == nullptr`), the do-not-optimize flag
(`rstate.no_optimizations()`), and the per-method pointer fixpoint
(`ptrs_fp_iter_map.find(method)->second`, presumed present). -/
structure MethodTable (M : Type) where
  get_code : M → Option IRCode
  no_optimizations : M → Bool
  fp_iter : M → FixpointIterator

/-- `emplace` on the concurrent summary map: insert only when the key is
absent. -/
def emplaceS {M : Type} [DecidableEq M] (smap : M → Option Summary) (k : M)
    (v : Summary) : M → Option Summary :=
  fun x => if x = k then some ((smap k).getD v) else smap x

/-- `emplace` on the per-call-site invoke-to-summary map. -/
def emplaceI (imap : Instr → Option Summary) (k : Instr) (v : Summary) :
    Instr → Option Summary :=
  fun x => if x = k then some ((imap k).getD v) else imap x

/-- The body of the conditional
`if (summary_cmap->count(callee) != 0)
   invoke_to_summary_cmap.emplace(edge->invoke_iterator()->insn, ...)`:
record the callee's summary for the originating invoke instruction when one
was published. -/
def record_callee_summary {M : Type} (smap2 : M → Option Summary)
    (imap : Instr → Option Summary) (edge : Edge M) :
    Instr → Option Summary :=
  match smap2 edge.callee with
  | some cs => emplaceI imap edge.invoke_insn cs
  | none => imap

mutual

/-- The callee loop of `analyze_method_recursive`: recursively analyze each
callee, and record its summary for the originating invoke instruction when
one was published. -/
def go_callees {M : Type} [DecidableEq M] [Fintype M] (g : CallGraph M)
    (mt : MethodTable M) (visiting : Finset M) (edges : List (Edge M))
    (smap : M → Option Summary) (imap : Instr → Option Summary) :
    ((M → Option Summary) × (Instr → Option Summary)) :=
  match edges with
  | [] => (smap, imap)
  | edge :: rest =>
      let smap2 := analyze_method_recursive g mt visiting edge.callee smap
      go_callees g mt visiting rest smap2
        (record_callee_summary smap2 imap edge)
termination_by (Fintype.card M - visiting.card, edges.length)

/-- `analyze_method_recursive` of SideEffectSummary.cpp: return immediately
when the method already has a summary, is on the current recursion path, or
has no body; otherwise extend the path-scoped visiting set, analyze the
callees depth-first, build this method's summary with the collected callee
summaries, OR in `EFF_NO_OPTIMIZE` for do-not-optimize methods, and publish
the result with an insert-if-absent.  The summary map is threaded
functionally; `M` is the finite type of methods. -/
def analyze_method_recursive {M : Type} [DecidableEq M] [Fintype M]
    (g : CallGraph M) (mt : MethodTable M) (visiting : Finset M) (method : M)
    (smap : M → Option Summary) : M → Option Summary :=
  match mt.get_code method with
  | none => smap
  | some code =>
      if h : (smap method).isSome = true ∨ method ∈ visiting then smap
      else
        let pair :=
          if g.has_node method then
            go_callees g mt (insert method visiting) (g.callees method) smap
              (fun _ => none)
          else (smap, fun _ => none)
        let scanned := analyze_code pair.2 (mt.fp_iter method) code
        let summary :=
          if mt.no_optimizations method then
            { scanned with effects := scanned.effects ||| EFF_NO_OPTIMIZE }
          else scanned
        emplaceS pair.1 method summary
termination_by (Fintype.card M - visiting.card, 0)
decreasing_by
  have hm : method ∉ visiting := fun hc => h (Or.inr hc)
  have h1 : (insert method visiting).card = visiting.card + 1 :=
    Finset.card_insert_of_not_mem hm
  have h2 : (insert method visiting).card ≤ Fintype.card M :=
    Finset.card_le_univ _
  left
  omega

end

theorem go_callees_nil {M : Type} [DecidableEq M] [Fintype M]
    (g : CallGraph M) (mt : MethodTable M) (visiting : Finset M)
    (smap : M → Option Summary) (imap : Instr → Option Summary) :
    go_callees g mt visiting [] smap imap = (smap, imap) := by
  simp [go_callees]

theorem go_callees_cons {M : Type} [DecidableEq M] [Fintype M]
    (g : CallGraph M) (mt : MethodTable M) (visiting : Finset M)
    (edge : Edge M) (rest : List (Edge M)) (smap : M → Option Summary)
    (imap : Instr → Option Summary) :
    go_callees g mt visiting (edge :: rest) smap imap
      = go_callees g mt visiting rest
          (analyze_method_recursive g mt visiting edge.callee smap)
          (record_callee_summary
            (analyze_method_recursive g mt visiting edge.callee smap) imap
            edge) := by
  rw [go_callees]

theorem analyze_no_code {M : Type} [DecidableEq M] [Fintype M]
    (g : CallGraph M) (mt : MethodTable M) (visiting : Finset M) (method : M)
    (smap : M → Option Summary) (hc : mt.get_code method = none) :
    analyze_method_recursive g mt visiting method smap = smap := by
  rw [analyze_method_recursive, hc]

theorem analyze_early {M : Type} [DecidableEq M] [Fintype M]
    (g : CallGraph M) (mt : MethodTable M) (visiting : Finset M) (method : M)
    (smap : M → Option Summary)
    (h : (smap method).isSome = true ∨ method ∈ visiting) :
    analyze_method_recursive g mt visiting method smap = smap := by
  rw [analyze_method_recursive]
  cases hc : mt.get_code method with
  | none => rfl
  | some code => simp [h]

theorem analyze_run {M : Type} [DecidableEq M] [Fintype M]
    (g : CallGraph M) (mt : MethodTable M) (visiting : Finset M) (method : M)
    (smap : M → Option Summary) (code : IRCode)
    (hc : mt.get_code method = some code)
    (h : ¬((smap method).isSome = true ∨ method ∈ visiting)) :
    analyze_method_recursive g mt visiting method smap
      = emplaceS
          (if g.has_node method then
            (go_callees g mt (insert method visiting) (g.callees method) smap
              (fun _ => none)).1
           else smap) method
          (if mt.no_optimizations method then
            { analyze_code
                (if g.has_node method then
                  (go_callees g mt (insert method visiting) (g.callees method)
                    smap (fun _ => none)).2
                 else fun _ => none) (mt.fp_iter method) code with
              effects :=
                (analyze_code
                  (if g.has_node method then
                    (go_callees g mt (insert method visiting)
                      (g.callees method) smap (fun _ => none)).2
                   else fun _ => none) (mt.fp_iter method) code).effects |||
                  EFF_NO_OPTIMIZE }
           else
            analyze_code
              (if g.has_node method then
                (go_callees g mt (insert method visiting) (g.callees method)
                  smap (fun _ => none)).2
               else fun _ => none) (mt.fp_iter method) code) := by
  rw [analyze_method_recursive, hc]
  simp only [dif_neg h]
  cases hg : g.has_node method <;> simp [hg]

/-- A two-method program with mutually recursive methods `A` and `B`, used
to exercise the cycle handling of the driver. -/
inductive MethodAB where
  | A
  | B
deriving DecidableEq

instance : Fintype MethodAB :=
  ⟨{MethodAB.A, MethodAB.B}, fun x => by cases x <;> simp⟩

/-- The invoke-static instruction in `A` calling `B`. -/
def invoke_insn_B : Instr := { opcode := Opcode.invoke_static, uid := 1 }

/-- The invoke-static instruction in `B` calling `A`. -/
def invoke_insn_A : Instr := { opcode := Opcode.invoke_static, uid := 2 }

/-- Body of `A`: a single block holding the call to `B`. -/
def code_A : IRCode := { param_insns := [], blocks := [⟨[invoke_insn_B]⟩] }

/-- Body of `B`: a single block holding the call to `A`. -/
def code_B : IRCode := { param_insns := [], blocks := [⟨[invoke_insn_A]⟩] }

/-- A pointer environment with no information (no heap writes occur). -/
def trivial_env : PtrEnv :=
  { get_pointers := fun _ => PtrVal.set [], may_have_escaped := fun _ => false }

/-- The (trivial) pointer fixpoint of both bodies. -/
def fp_AB : FixpointIterator :=
  { entry_state_at := fun _ => some trivial_env,
    analyze_instruction := fun _ env => env }

/-- The call graph `A → B → A`. -/
def graph_AB : CallGraph MethodAB :=
  { has_node := fun _ => true,
    callees := fun m =>
      match m with
      | MethodAB.A => [{ callee := MethodAB.B, invoke_insn := invoke_insn_B }]
      | MethodAB.B => [{ callee := MethodAB.A, invoke_insn := invoke_insn_A }] }

/-- The method table of the two-method program. -/
def mt_AB : MethodTable MethodAB :=
  { get_code := fun m =>
      match m with
      | MethodAB.A => some code_A
      | MethodAB.B => some code_B,
    no_optimizations := fun _ => false,
    fp_iter := fun _ => fp_AB }

theorem analyze_invoke_some_empty (pmap : Instr → Nat)
    (invoke_map : Instr → Option Summary) (env : PtrEnv) (insn : Instr)
    (s cs : Summary)
    (hop : insn.opcode = Opcode.invoke_static ∨
      insn.opcode = Opcode.invoke_direct ∨
      insn.opcode = Opcode.invoke_virtual)
    (hcs : invoke_map insn = some cs) (hmp : cs.modified_params = ∅) :
    analyze_instruction_effects pmap invoke_map env insn s
      = { s with effects := s.effects ||| cs.effects } := by
  rw [analyze_invoke_some pmap invoke_map env insn s cs hop hcs, hmp,
    Finset.sort_empty]
  rfl

/-- C4: the recursive driver is a total function (this file's definition
carries a termination proof over arbitrary finite call graphs, cycles
included); a method with a published summary, on the current recursion
path, or without a body returns immediately; and on the concrete mutually
recursive pair `A → B → A` both methods receive a summary whose effects are
exactly `unknown-invoke`, obtained through the missing-summary fallback on
the back-edge call. -/
theorem analyze_method_recursive_terminates_cycles :
    (∀ (M : Type) [DecidableEq M] [Fintype M] (g : CallGraph M)
        (mt : MethodTable M) (visiting : Finset M) (method : M)
        (smap : M → Option Summary),
        ((smap method).isSome = true →
          analyze_method_recursive g mt visiting method smap = smap)
        ∧ (method ∈ visiting →
          analyze_method_recursive g mt visiting method smap = smap)
        ∧ (mt.get_code method = none →
          analyze_method_recursive g mt visiting method smap = smap))
    ∧ analyze_method_recursive graph_AB mt_AB ∅ MethodAB.A (fun _ => none)
        MethodAB.A = some { effects := EFF_UNKNOWN_INVOKE }
    ∧ analyze_method_recursive graph_AB mt_AB ∅ MethodAB.A (fun _ => none)
        MethodAB.B = some { effects := EFF_UNKNOWN_INVOKE } := by
  have hinner : analyze_method_recursive graph_AB mt_AB
      (insert MethodAB.B (insert MethodAB.A ∅)) MethodAB.A (fun _ => none)
      = (fun _ => none) :=
    analyze_early _ _ _ _ _ (Or.inr (by decide))
  have hB : analyze_method_recursive graph_AB mt_AB (insert MethodAB.A ∅)
      MethodAB.B (fun _ => none)
      = emplaceS (fun _ => none) MethodAB.B
          { effects := EFF_UNKNOWN_INVOKE } := by
    rw [analyze_run graph_AB mt_AB (insert MethodAB.A ∅) MethodAB.B
      (fun _ => none) code_B rfl (by decide)]
    simp only [if_pos (show graph_AB.has_node MethodAB.B = true from rfl),
      if_neg (show ¬(mt_AB.no_optimizations MethodAB.B = true) from by decide),
      show graph_AB.callees MethodAB.B
        = [{ callee := MethodAB.A, invoke_insn := invoke_insn_A }] from rfl]
    simp only [go_callees_cons, go_callees_nil]
    rw [hinner]
    congr 1
  have hcodeA : analyze_code
      (record_callee_summary
        (emplaceS (fun _ => none) MethodAB.B { effects := EFF_UNKNOWN_INVOKE })
        (fun _ => none) { callee := MethodAB.B, invoke_insn := invoke_insn_B })
      (mt_AB.fp_iter MethodAB.A) code_A
      = { effects := EFF_UNKNOWN_INVOKE } := by
    simp only [analyze_code, build]
    rw [show code_A.blocks = [{ insns := [invoke_insn_B] }] from rfl]
    simp only [List.foldl_cons, List.foldl_nil]
    rw [show (mt_AB.fp_iter MethodAB.A).entry_state_at
      { insns := [invoke_insn_B] } = some trivial_env from rfl]
    simp only [List.foldl_cons, List.foldl_nil]
    rw [analyze_invoke_some_empty (param_insn_map code_A) _ _ _ _
      { effects := EFF_UNKNOWN_INVOKE } (Or.inl rfl) (by decide) rfl]
    decide
  refine ⟨?_, ?_, ?_⟩
  · intro M instD instF g mt visiting method smap
    exact ⟨fun h1 => analyze_early g mt visiting method smap (Or.inl h1),
      fun h2 => analyze_early g mt visiting method smap (Or.inr h2),
      fun h3 => analyze_no_code g mt visiting method smap h3⟩
  · rw [analyze_run graph_AB mt_AB ∅ MethodAB.A (fun _ => none) code_A rfl
      (by decide)]
    simp only [if_pos (show graph_AB.has_node MethodAB.A = true from rfl),
      if_neg (show ¬(mt_AB.no_optimizations MethodAB.A = true) from by decide),
      show graph_AB.callees MethodAB.A
        = [{ callee := MethodAB.B, invoke_insn := invoke_insn_B }] from rfl]
    simp only [go_callees_cons, go_callees_nil]
    rw [hB, hcodeA]
    decide
  · rw [analyze_run graph_AB mt_AB ∅ MethodAB.A (fun _ => none) code_A rfl
      (by decide)]
    simp only [if_pos (show graph_AB.has_node MethodAB.A = true from rfl),
      if_neg (show ¬(mt_AB.no_optimizations MethodAB.A = true) from by decide),
      show graph_AB.callees MethodAB.A
        = [{ callee := MethodAB.B, invoke_insn := invoke_insn_B }] from rfl]
    simp only [go_callees_cons, go_callees_nil]
    rw [hB, hcodeA]
    decide

/-- Witness for C4's early-return clauses: a method on the recursion path,
and a method that already has a published summary, are both returned
unchanged on the concrete two-method program. -/
theorem analyze_method_recursive_terminates_cycles_witness :
    analyze_method_recursive graph_AB mt_AB (insert MethodAB.A ∅) MethodAB.A
        (fun _ => none) = (fun _ => none)
    ∧ analyze_method_recursive graph_AB mt_AB ∅ MethodAB.A
        (fun _ => some { effects := 1 }) = (fun _ => some { effects := 1 }) := by
  constructor
  · exact (analyze_method_recursive_terminates_cycles.1 MethodAB graph_AB
      mt_AB (insert MethodAB.A ∅) MethodAB.A (fun _ => none)).2.1 (by decide)
  · exact (analyze_method_recursive_terminates_cycles.1 MethodAB graph_AB
      mt_AB ∅ MethodAB.A (fun _ => some { effects := 1 })).1 rfl

/-- Members of the path-scoped visiting set are never published to by the
driver: a method on the current recursion path keeps its (absent) summary
throughout the callee exploration.  Proved by strong induction on the number
of methods not yet on the path. -/
theorem visiting_preserved {M : Type} [DecidableEq M] [Fintype M]
    (g : CallGraph M) (mt : MethodTable M) :
    ∀ n : Nat,
      (∀ (visiting : Finset M) (method : M) (smap : M → Option Summary),
        Fintype.card M - visiting.card ≤ n →
        ∀ x ∈ visiting,
          analyze_method_recursive g mt visiting method smap x = smap x)
      ∧ (∀ (visiting : Finset M) (edges : List (Edge M))
          (smap : M → Option Summary) (imap : Instr → Option Summary),
          Fintype.card M - visiting.card ≤ n →
          ∀ x ∈ visiting,
            (go_callees g mt visiting edges smap imap).1 x = smap x) := by
  intro n
  induction n with
  | zero =>
      have huniv : ∀ (v : Finset M), Fintype.card M - v.card ≤ 0 →
          ∀ y : M, y ∈ v := by
        intro v hv y
        have hcard : v.card = Fintype.card M :=
          le_antisymm (Finset.card_le_univ v) (by omega)
        rw [Finset.eq_univ_of_card v hcard]
        exact Finset.mem_univ y
      constructor
      · intro v m smap hn x hx
        rw [analyze_early g mt v m smap (Or.inr (huniv v hn m))]
      · intro v edges smap imap hn x hx
        induction edges generalizing smap imap with
        | nil => rw [go_callees_nil]
        | cons e rest ih =>
            rw [go_callees_cons,
              analyze_early g mt v e.callee smap (Or.inr (huniv v hn e.callee))]
            exact ih smap (record_callee_summary smap imap e)
  | succ n ihn =>
      obtain ⟨ihA, ihG⟩ := ihn
      have hA : ∀ (v : Finset M) (m : M) (smap : M → Option Summary),
          Fintype.card M - v.card ≤ n + 1 → ∀ x ∈ v,
            analyze_method_recursive g mt v m smap x = smap x := by
        intro v m smap hn x hx
        cases hc : mt.get_code m with
        | none => rw [analyze_no_code g mt v m smap hc]
        | some code =>
            by_cases h : (smap m).isSome = true ∨ m ∈ v
            · rw [analyze_early g mt v m smap h]
            · rw [analyze_run g mt v m smap code hc h]
              have hm : m ∉ v := fun hmv => h (Or.inr hmv)
              have hxm : x ≠ m := fun he => hm (he ▸ hx)
              have hcard : Fintype.card M - (insert m v).card ≤ n := by
                have h1 : (insert m v).card = v.card + 1 :=
                  Finset.card_insert_of_not_mem hm
                have h2 : (insert m v).card ≤ Fintype.card M :=
                  Finset.card_le_univ _
                omega
              simp only [emplaceS]
              rw [if_neg hxm]
              cases hg : g.has_node m with
              | true =>
                  rw [if_pos rfl]
                  exact ihG (insert m v) (g.callees m) smap (fun _ => none)
                    hcard x (Finset.mem_insert_of_mem hx)
              | false =>
                  rw [if_neg Bool.false_ne_true]
      refine ⟨hA, ?_⟩
      intro v edges smap imap hn x hx
      induction edges generalizing smap imap with
      | nil => rw [go_callees_nil]
      | cons e rest ih =>
          rw [go_callees_cons, ih]
          exact hA v e.callee smap hn x hx

/-- C8: for a do-not-optimize method that the driver actually analyzes, the
published summary is exactly the instruction scan's summary with the
no-optimize flag ORed into its effects: the do-not-optimize check runs after
the per-instruction build, so the no-optimize bit is present and every
effect bit found by the scan is preserved, as are the scanned modified
parameters. -/
theorem no_optimize_effect_added {M : Type} [DecidableEq M] [Fintype M]
    (g : CallGraph M) (mt : MethodTable M) (visiting : Finset M) (method : M)
    (smap : M → Option Summary) (code : IRCode)
    (hc : mt.get_code method = some code) (h1 : smap method = none)
    (h2 : method ∉ visiting) (hno : mt.no_optimizations method = true) :
    ∃ scanned : Summary,
      scanned = analyze_code
          (if g.has_node method then
            (go_callees g mt (insert method visiting) (g.callees method) smap
              (fun _ => none)).2
           else fun _ => none) (mt.fp_iter method) code
      ∧ analyze_method_recursive g mt visiting method smap method
          = some { effects := scanned.effects ||| EFF_NO_OPTIMIZE,
                   modified_params := scanned.modified_params }
      ∧ hasEff (scanned.effects ||| EFF_NO_OPTIMIZE) EFF_NO_OPTIMIZE
      ∧ hasEff (scanned.effects ||| EFF_NO_OPTIMIZE) scanned.effects := by
  have h : ¬((smap method).isSome = true ∨ method ∈ visiting) := by
    rintro (ha | hb)
    · rw [h1] at ha
      cases ha
    · exact h2 hb
  refine ⟨analyze_code
      (if g.has_node method then
        (go_callees g mt (insert method visiting) (g.callees method) smap
          (fun _ => none)).2
       else fun _ => none) (mt.fp_iter method) code, rfl, ?_,
    hasEff_lor_self _ _, hasEff_lor_base _ _⟩
  rw [analyze_run g mt visiting method smap code hc h, if_pos hno]
  have hpair1 : (if g.has_node method then
      (go_callees g mt (insert method visiting) (g.callees method) smap
        (fun _ => none)).1
     else smap) method = none := by
    cases hg : g.has_node method with
    | true =>
        rw [if_pos rfl]
        rw [(visiting_preserved g mt (Fintype.card M)).2
          (insert method visiting) (g.callees method) smap (fun _ => none)
          (Nat.sub_le _ _) method (Finset.mem_insert_self method visiting)]
        exact h1
    | false =>
        rw [if_neg Bool.false_ne_true]
        exact h1
  simp only [emplaceS]
  rw [if_pos trivial, hpair1]
  rfl

/-- A single do-not-optimize method with an empty body, used as the C8
witness program. -/
inductive MethodC where
  | C
deriving DecidableEq

instance : Fintype MethodC := ⟨{MethodC.C}, fun x => by cases x <;> simp⟩

/-- Call graph of the one-method witness program: the method is not a graph
node. -/
def graph_C : CallGraph MethodC :=
  { has_node := fun _ => false, callees := fun _ => [] }

/-- Method table of the one-method witness program; the method is marked
do-not-optimize. -/
def mt_C : MethodTable MethodC :=
  { get_code := fun _ => some { param_insns := [], blocks := [] },
    no_optimizations := fun _ => true,
    fp_iter := fun _ => fp_AB }

/-- Witness for C8 on the concrete one-method do-not-optimize program. -/
theorem no_optimize_effect_added_witness :
    ∃ scanned : Summary,
      scanned = analyze_code
          (if graph_C.has_node MethodC.C then
            (go_callees graph_C mt_C (insert MethodC.C ∅)
              (graph_C.callees MethodC.C) (fun _ => none) (fun _ => none)).2
           else fun _ => none) (mt_C.fp_iter MethodC.C)
          { param_insns := [], blocks := [] }
      ∧ analyze_method_recursive graph_C mt_C ∅ MethodC.C (fun _ => none)
          MethodC.C
          = some { effects := scanned.effects ||| EFF_NO_OPTIMIZE,
                   modified_params := scanned.modified_params }
      ∧ hasEff (scanned.effects ||| EFF_NO_OPTIMIZE) EFF_NO_OPTIMIZE
      ∧ hasEff (scanned.effects ||| EFF_NO_OPTIMIZE) scanned.effects :=
  no_optimize_effect_added graph_C mt_C ∅ MethodC.C (fun _ => none)
    { param_insns := [], blocks := [] } rfl rfl (Finset.not_mem_empty _) rfl

end Redex
